import Mathlib

/-!
Shallow embedding of the Token-2022 parser core (`sdk/src/token_utils.rs`).

Addresses are 32-byte identifiers, modelled as lists of bytes; accounts carry
a lamport balance, raw data bytes and an owner address.  The RPC client is
external to the repository, so the batch fetcher is parametrised over an
arbitrary chunk-request function `rpc`; on-chain decoding helpers that live in
external crates (`spl_token_2022`, `mpl_token_metadata`) are either modelled
from the specification or abstracted as parameters, as noted on each
definition.
-/

namespace Token2022

/-- A 32-byte on-chain address (`solana_sdk::pubkey::Pubkey`); two addresses
are equal iff their byte contents are equal. -/
structure Pubkey where
  bytes : List Nat
deriving DecidableEq, Repr

/-- A raw on-chain account record (`solana_sdk::account::Account`), restricted
to the fields the parser reads: lamport balance, raw data bytes, owner. -/
structure Account where
  lamports : Nat
  data : List Nat
  owner : Pubkey
deriving DecidableEq, Repr

/-- The system program id (`solana_sdk::system_program::id()`), the all-zero
address `11111111111111111111111111111111`. -/
def systemProgramId : Pubkey := ⟨List.replicate 32 0⟩

/-- Recursion engine for `chunksOf`: the fuel argument bounds the number of
chunks peeled off and is instantiated with the list's length, which always
suffices because every step consumes at least one element. -/
def chunksOfGo (k : Nat) : (fuel : Nat) → List α → List (List α)
  | _, [] => []
  | 0, _ :: _ => []
  | fuel + 1, x :: xs =>
    match k with
    | 0 => []
    | k' + 1 => (x :: List.take k' xs) :: chunksOfGo k fuel (List.drop k' xs)

/-- Rust's `slice::chunks k`: partition a list into consecutive chunks of
`k` elements, the last chunk possibly shorter.  `chunks` panics on `k = 0` in
Rust; that case is modelled as no chunks and is never used. -/
def chunksOf (k : Nat) (l : List α) : List (List α) :=
  chunksOfGo k l.length l

/-- One chunk request of `fetch_metadata_accounts`
(`rpc_client.get_multiple_accounts_with_config(chunk, ...)` followed by the
`match` on the response): an `Ok` response contributes its value, a failed
request contributes `vec![None; 100]` (note: 100 literally, not the chunk's
length). -/
def fetchChunk (rpc : List Pubkey → Except ε (List (Option Account)))
    (chunk : List Pubkey) : List (Option Account) :=
  match rpc chunk with
  | .ok r => r
  | .error _ => List.replicate 100 none

/-- The list assembled by `fetch_metadata_accounts`: split the keys into
chunks of 100, issue one request per chunk, and flatten the per-chunk results
in chunk order (`flat_map ... collect`). -/
def fetchMetadataList (rpc : List Pubkey → Except ε (List (Option Account)))
    (keys : List Pubkey) : List (Option Account) :=
  ((chunksOf 100 keys).map (fetchChunk rpc)).flatten

/-- `fetch_metadata_accounts`: returns `Ok` of the assembled list; chunk
failures are absorbed by `fetchChunk`, so the function itself never errors. -/
def fetch_metadata_accounts (rpc : List Pubkey → Except ε (List (Option Account)))
    (keys : List Pubkey) : Except ε (List (Option Account)) :=
  .ok (fetchMetadataList rpc keys)

/-- Number of remote requests issued by `fetch_metadata_accounts`: one future
per chunk, all awaited by `join_all`. -/
def numFetchRequests (keys : List Pubkey) : Nat :=
  (chunksOf 100 keys).length

/-- The decoded metadata layout, restricted to the field the parser prints
(`mpl_token_metadata::accounts::Metadata.mint`). -/
structure Metadata where
  mint : Pubkey
deriving DecidableEq, Repr

/-- The dead-account test of `print_metadata_results`: zero lamports, or empty
data, or owned by the system program (a closed account still in the ledger). -/
def isDeadAccount (a : Account) : Bool :=
  a.lamports == 0 || a.data.isEmpty || a.owner == systemProgramId

/-- One loop iteration of `print_metadata_results` for the pair
`(pda, maybe_account)`, returning the `(mint, metadata address)` pair printed,
if any.  `deser` abstracts the external `Metadata::safe_deserialize`. -/
def metadataStep (deser : List Nat → Option Metadata)
    (p : Pubkey × Option Account) : Option (Pubkey × Pubkey) :=
  match p.2 with
  | none => none
  | some a =>
    if isDeadAccount a then none
    else (deser a.data).map (fun m => (m.mint, p.1))

/-- `print_metadata_results` as the list of `(mint, metadata address)` pairs
it prints: it zips the pda list with the account list and keeps the pairs that
hold a live, deserialisable metadata account. -/
def print_metadata_results (deser : List Nat → Option Metadata)
    (pdas : List Pubkey) (accs : List (Option Account)) : List (Pubkey × Pubkey) :=
  (pdas.zip accs).filterMap (metadataStep deser)

/-- Decode failure of the fixed mint layout (spec error taxonomy
`MalformedRecord`). -/
inductive DecodeErr
  | malformedRecord
deriving DecidableEq, Repr

/-- TLV walk failure (spec error taxonomy `TruncatedExtension`). -/
inductive TlvErr
  | truncatedExtension
deriving DecidableEq, Repr

/-- Modelled from the spec: the fixed-size base mint layout of
`spl_token_2022::state::Mint` (external crate).  A 36-byte padded optional
mint authority, an 8-byte supply and a decimals byte put the is-initialized
flag at offset 45; a second 36-byte padded optional authority closes the base
layout at 82 bytes. -/
def baseMintLen : Nat := 82

/-- A decoded mint: the fixed-layout base bytes plus the trailing extension
region (empty when the record is exactly the base layout). -/
structure DecodedMint where
  base : List Nat
  extensionRegion : List Nat
deriving DecidableEq, Repr

/-- Modelled from the spec: the ByteLayoutDecoder contract of
`StateWithExtensions::<Mint>::unpack` (external crate `spl_token_2022`).
A record shorter than the base layout fails with `MalformedRecord`; otherwise
the suffix past the base layout is the opaque extension region. -/
def decodeMint (data : List Nat) : Except DecodeErr DecodedMint :=
  if baseMintLen ≤ data.length then
    .ok ⟨data.take baseMintLen, data.drop baseMintLen⟩
  else
    .error .malformedRecord

/-- Modelled from the spec: the ExtensionClassifier contract of
`get_extension_types` (external crate `spl_token_2022`).  The extension
region is a sequence of TLV entries — a 2-byte little-endian tag, a 2-byte
little-endian length, then `length` value bytes — walked until the slice is
exhausted; a declared length reading past the end of the slice fails with
`TruncatedExtension`.  Returns the tags in encounter order. -/
def classifyExtensions : List Nat → Except TlvErr (List Nat)
  | [] => .ok []
  | t0 :: t1 :: l0 :: l1 :: rest =>
    let len := l0 + 256 * l1
    if len ≤ rest.length then
      match classifyExtensions (List.drop len rest) with
      | .ok tags => .ok ((t0 + 256 * t1) :: tags)
      | .error e => .error e
    else
      .error .truncatedExtension
  | _ => .error .truncatedExtension
termination_by l => l.length
decreasing_by simp; omega

/-- The display name of an extension tag (the source formats each extension
type with `format!("\x7b:?\x7d", ext)`; the external debug name is modelled by
the tag's decimal spelling, an injective renaming). -/
def extTagName (t : Nat) : String := toString t

/-- One loop iteration of `filter_mints_with_extensions` for the pair
`(pubkey, account)`: unpack the mint, classify extensions with errors
defaulting to the empty list (`unwrap_or_default`), and keep the record only
when at least one extension is present. -/
def mintExtStep (p : Pubkey × Account) : Option (Pubkey × List String) :=
  match decodeMint p.2.data with
  | .error _ => none
  | .ok st =>
    let exts := match classifyExtensions st.extensionRegion with
      | .ok tags => tags
      | .error _ => []
    if exts.isEmpty then none else some (p.1, exts.map extTagName)

/-- `filter_mints_with_extensions`: the loop that pushes one
`(pubkey, extension names)` entry per account that unpacks as a mint and
carries at least one extension; it is total and never returns an error. -/
def filter_mints_with_extensions (accounts : List (Pubkey × Account)) :
    List (Pubkey × List String) :=
  accounts.filterMap mintExtStep

/-- The program-derived-address domain separator appended after the program
id during derivation. -/
def pdaMarker : List Nat := "ProgramDerivedAddress".toList.map Char.toNat

/-- The literal first seed of the Metaplex metadata derivation. -/
def metadataSeedLiteral : List Nat := "metadata".toList.map Char.toNat

/-- The Metaplex token-metadata program id
`metaqbxxUerdq28cj1RbAWkYQm3ybzjb6a8bt518x1s`, decoded to bytes. -/
def tokenMetadataProgramId : Pubkey :=
  ⟨[11, 112, 101, 177, 227, 209, 124, 69, 56, 157, 82, 127, 107, 4, 195, 205,
    88, 184, 108, 115, 26, 160, 253, 181, 73, 182, 209, 188, 3, 248, 41, 70]⟩

/-- Modelled from the spec: the bump search of `find_program_address`
(external crates `mpl_token_metadata` / `solana_sdk`).  Candidate bumps are
tried from 255 downward; each candidate hashes
`seeds ++ [bump] ++ programId ++ domain separator` and the first off-curve
result is returned with its bump.  The hash and the on-curve test are
abstracted as parameters. -/
def tryBumps (hash : List Nat → Pubkey) (onCurve : Pubkey → Bool)
    (seeds : List (List Nat)) (programId : Pubkey) : Nat → Option (Pubkey × Nat)
  | 0 => none
  | n + 1 =>
    let addr := hash (seeds.flatten ++ [n] ++ programId.bytes ++ pdaMarker)
    if onCurve addr then tryBumps hash onCurve seeds programId n
    else some (addr, n)

/-- Modelled from the spec: `find_program_address` searches the full bump
space 255 down to 0 and returns `none` (`NoValidBumpFound`) only when every
candidate lies on the curve. -/
def find_program_address (hash : List Nat → Pubkey) (onCurve : Pubkey → Bool)
    (seeds : List (List Nat)) (programId : Pubkey) : Option (Pubkey × Nat) :=
  tryBumps hash onCurve seeds programId 256

/-- `derive_metadata_pda`: `Metadata::find_pda(mint).0`, i.e. the derivation
over the seeds `["metadata", metadata program id, mint]` against the metadata
program id, keeping the address. -/
def derive_metadata_pda (hash : List Nat → Pubkey) (onCurve : Pubkey → Bool)
    (mint : Pubkey) : Option Pubkey :=
  (find_program_address hash onCurve
    [metadataSeedLiteral, tokenMetadataProgramId.bytes, mint.bytes]
    tokenMetadataProgramId).map (fun r => r.1)

/-- A sample 32-byte address used by the concrete instances below. -/
def samplePk : Pubkey := ⟨List.replicate 32 1⟩

/-- A deserialiser that succeeds on every byte string, used to show that
dead-record filtering does not depend on the data contents. -/
def someDeser : List Nat → Option Metadata := fun _ => some ⟨samplePk⟩

/-- A deserialiser that fails on every byte string. -/
def noneDeser : List Nat → Option Metadata := fun _ => none

/-- A closed (dead) account: zero lamports but non-empty data. -/
def deadAcct : Account := ⟨0, [1, 2], samplePk⟩

/-- A live account whose single data byte is too short to decode. -/
def shortAcct : Account := ⟨1, [], samplePk⟩

/-- A live account that deserialises as nothing in particular. -/
def liveAcct : Account := ⟨5, [1], samplePk⟩

/-- A mint record whose base layout decodes but whose extension region
declares a 5-byte value with no bytes behind it. -/
def truncAcct : Account := ⟨1, List.replicate 82 0 ++ [3, 0, 5, 0], samplePk⟩

/-- A chunk-request function that fails every request. -/
def rpcFailAll : List Pubkey → Except Unit (List (Option Account)) :=
  fun _ => .error ()

/-- A 150-address input list: two chunks of 100 and 50 addresses. -/
def keys150 : List Pubkey := List.replicate 150 samplePk

/-- Any fuel at least the list's length yields the same chunk list. -/
theorem chunksOfGo_fuel (k : Nat) :
    ∀ (f₁ f₂ : Nat) (l : List α), l.length ≤ f₁ → l.length ≤ f₂ →
      chunksOfGo k f₁ l = chunksOfGo k f₂ l := by
  intro f₁
  induction f₁ with
  | zero =>
    intro f₂ l h1 _
    have hl : l = [] := by
      cases l with
      | nil => rfl
      | cons x xs => simp at h1
    subst hl
    cases f₂ <;> rfl
  | succ f ih =>
    intro f₂ l h1 h2
    cases l with
    | nil => cases f₂ <;> rfl
    | cons x xs =>
      cases f₂ with
      | zero => simp at h2
      | succ f₂ =>
        cases k with
        | zero => rfl
        | succ k' =>
          show (x :: List.take k' xs) :: chunksOfGo (k' + 1) f (List.drop k' xs) =
               (x :: List.take k' xs) :: chunksOfGo (k' + 1) f₂ (List.drop k' xs)
          have hd : (List.drop k' xs).length = xs.length - k' := List.length_drop ..
          simp only [List.length_cons] at h1 h2
          rw [ih f₂ (List.drop k' xs) (by omega) (by omega)]

/-- `chunksOf` on the empty list is empty. -/
theorem chunksOf_nil (k : Nat) : chunksOf k ([] : List α) = [] := rfl

/-- Unfolding equation for `chunksOf` at a positive chunk size and a nonempty
list: peel off the first `k + 1` elements and recurse on the rest. -/
theorem chunksOf_cons (k : Nat) (x : α) (xs : List α) :
    chunksOf (k + 1) (x :: xs) =
      (x :: List.take k xs) :: chunksOf (k + 1) (List.drop k xs) := by
  show (x :: List.take k xs) :: chunksOfGo (k + 1) xs.length (List.drop k xs) =
       (x :: List.take k xs) :: chunksOfGo (k + 1) (List.drop k xs).length (List.drop k xs)
  have hd : (List.drop k xs).length = xs.length - k := List.length_drop ..
  rw [chunksOfGo_fuel (k + 1) xs.length (List.drop k xs).length (List.drop k xs)
    (by omega) (by omega)]

/-- Every chunk produced by `chunksOf k` has at most `k` elements. -/
theorem chunksOf_mem_length_le (k : Nat) (l : List α) :
    ∀ c ∈ chunksOf k l, c.length ≤ k := by
  have key : ∀ (n : Nat) (l : List α), l.length ≤ n →
      ∀ c ∈ chunksOf k l, c.length ≤ k := by
    intro n
    induction n with
    | zero =>
      intro l hl c hc
      have : l = [] := by
        cases l with
        | nil => rfl
        | cons x xs => simp at hl
      subst this
      simp [chunksOf_nil] at hc
    | succ n ih =>
      intro l hl c hc
      cases l with
      | nil => simp [chunksOf_nil] at hc
      | cons x xs =>
        cases k with
        | zero => simp [chunksOf, chunksOfGo] at hc
        | succ k' =>
          rw [chunksOf_cons, List.mem_cons] at hc
          cases hc with
          | inl h => subst h; simp
          | inr h =>
            have hd : (List.drop k' xs).length = xs.length - k' := List.length_drop ..
            exact ih (List.drop k' xs) (by simp at hl; omega) c h
  exact key l.length l (Nat.le_refl _)

/-- The `j`-th chunk of `chunksOf (k+1) l`, when it exists, has exactly
`min (k+1) (l.length - (k+1)*j)` elements. -/
theorem chunksOf_getElem?_length (k : Nat) :
    ∀ (j : Nat) (l : List α) (c : List α),
      (chunksOf (k + 1) l)[j]? = some c →
      c.length = min (k + 1) (l.length - (k + 1) * j) := by
  intro j
  induction j with
  | zero =>
    intro l c h
    cases l with
    | nil => simp [chunksOf_nil] at h
    | cons x xs =>
      rw [chunksOf_cons] at h
      simp at h
      subst h
      simp
      omega
  | succ j ih =>
    intro l c h
    cases l with
    | nil => simp [chunksOf_nil] at h
    | cons x xs =>
      rw [chunksOf_cons] at h
      simp only [List.getElem?_cons_succ] at h
      have hrec := ih (List.drop k xs) c h
      rw [List.length_drop] at hrec
      have hm : (k + 1) * (j + 1) = (k + 1) * j + (k + 1) := by ring
      simp only [List.length_cons, hm]
      omega

/-- Indexing a flattened list of blocks: when every block before block `j`
has exactly `k` elements, position `k*j + o` of the flattened list reads
position `o` of block `j`. -/
theorem flatten_getElem?_block (k : Nat) :
    ∀ (j : Nat) (bs : List (List α)) (o : Nat) (b : List α),
      bs[j]? = some b → o < b.length →
      (∀ jn bn, jn < j → bs[jn]? = some bn → bn.length = k) →
      bs.flatten[k * j + o]? = b[o]? := by
  intro j
  induction j with
  | zero =>
    intro bs o b hj ho _
    cases bs with
    | nil => simp at hj
    | cons b0 rest =>
      simp at hj
      subst hj
      simp only [Nat.mul_zero, Nat.zero_add, List.flatten_cons]
      rw [List.getElem?_append]
      simp [ho]
  | succ j ih =>
    intro bs o b hj ho hlen
    cases bs with
    | nil => simp at hj
    | cons b0 rest =>
      simp only [List.getElem?_cons_succ] at hj
      have h0 : b0.length = k := hlen 0 b0 (Nat.succ_pos j) (by simp)
      have hidx : b0.length ≤ k * (j + 1) + o := by
        rw [h0]; ring_nf; omega
      simp only [List.flatten_cons]
      rw [List.getElem?_append_right hidx]
      have harith : k * (j + 1) + o - b0.length = k * j + o := by
        rw [h0]; ring_nf; omega
      rw [harith]
      exact ih rest o b hj ho
        (fun jn bn hjn hbn => hlen (jn + 1) bn (Nat.succ_lt_succ hjn) (by simpa))

/-- When the input's length is exactly the chunk size, there is exactly one
chunk and it holds the whole input. -/
theorem chunksOf_map_length_of_eq (k : Nat) (l : List α) (h : l.length = k + 1) :
    (chunksOf (k + 1) l).map List.length = [k + 1] := by
  cases l with
  | nil => simp at h
  | cons x xs =>
    simp only [List.length_cons] at h
    rw [chunksOf_cons, List.take_of_length_le (by omega),
      List.drop_eq_nil_of_le (by omega), chunksOf_nil]
    simp
    omega

/-- When the input's length exceeds the chunk size by one, there are exactly
two chunks, of the chunk size and of one element. -/
theorem chunksOf_map_length_of_succ (k : Nat) (l : List α) (h : l.length = k + 2) :
    (chunksOf (k + 1) l).map List.length = [k + 1, 1] := by
  cases l with
  | nil => simp at h
  | cons x xs =>
    simp only [List.length_cons] at h
    have hxs : xs.length = k + 1 := by omega
    rw [chunksOf_cons]
    have hdlen : (List.drop k xs).length = 1 := by
      rw [List.length_drop, hxs]; omega
    obtain ⟨y, hy⟩ : ∃ y, List.drop k xs = [y] := by
      cases hd : List.drop k xs with
      | nil => rw [hd] at hdlen; simp at hdlen
      | cons y ys =>
        rw [hd] at hdlen
        simp at hdlen
        exact ⟨y, by rw [hdlen]⟩
    rw [hy]
    have hone : chunksOf (k + 1) [y] = [[y]] := by
      rw [show ([y] : List α) = y :: [] from rfl, chunksOf_cons]
      simp [chunksOf_nil]
    rw [hone]
    simp [hxs]

/-- C5: the metadata-address derivation is deterministic: two calls of
`derive_metadata_pda` with the same mint input yield identical addresses (the
embedding is a pure function of the mint, the seed constants and the
derivation parameters, with no hidden state). -/
theorem derive_metadata_pda_deterministic (hash : List Nat → Pubkey)
    (onCurve : Pubkey → Bool) (m₁ m₂ : Pubkey) (h : m₁ = m₂) :
    derive_metadata_pda hash onCurve m₁ = derive_metadata_pda hash onCurve m₂ := by
  rw [h]

/-- Witness for C5 at a concrete hash, curve test and mint. -/
theorem derive_metadata_pda_deterministic_witness :
    derive_metadata_pda (fun l => ⟨l.take 32⟩) (fun _ => false) samplePk =
      derive_metadata_pda (fun l => ⟨l.take 32⟩) (fun _ => false) samplePk :=
  derive_metadata_pda_deterministic (fun l => ⟨l.take 32⟩) (fun _ => false)
    samplePk samplePk rfl

/-- C9: on the empty address list, `fetch_metadata_accounts` returns `Ok` of
the empty list and issues zero remote requests. -/
theorem fetch_metadata_accounts_empty
    (rpc : List Pubkey → Except ε (List (Option Account))) :
    fetch_metadata_accounts rpc [] = .ok [] ∧ numFetchRequests [] = 0 :=
  ⟨rfl, rfl⟩

/-- C6: the batch fetcher splits its input into chunks of at most 100
addresses and issues one request per chunk: 100 addresses give exactly one
request (of size 100), 101 addresses give exactly two requests (of sizes 100
and 1). -/
theorem fetch_chunking_boundary (keys : List Pubkey) :
    (∀ c ∈ chunksOf 100 keys, c.length ≤ 100) ∧
    (keys.length = 100 →
      numFetchRequests keys = 1 ∧ (chunksOf 100 keys).map List.length = [100]) ∧
    (keys.length = 101 →
      numFetchRequests keys = 2 ∧ (chunksOf 100 keys).map List.length = [100, 1]) := by
  refine ⟨chunksOf_mem_length_le 100 keys, ?_, ?_⟩
  · intro h
    have hmap := chunksOf_map_length_of_eq 99 keys (by omega)
    norm_num at hmap
    refine ⟨?_, hmap⟩
    have hlen := congrArg List.length hmap
    simpa [numFetchRequests] using hlen
  · intro h
    have hmap := chunksOf_map_length_of_succ 99 keys (by omega)
    norm_num at hmap
    refine ⟨?_, hmap⟩
    have hlen := congrArg List.length hmap
    simpa [numFetchRequests] using hlen

/-- Witness for C6 at a concrete 101-address list. -/
theorem fetch_chunking_boundary_witness :
    numFetchRequests (List.replicate 101 samplePk) = 2 ∧
    (chunksOf 100 (List.replicate 101 samplePk)).map List.length = [100, 1] :=
  (fetch_chunking_boundary (List.replicate 101 samplePk)).2.2 (by simp)

set_option maxRecDepth 10000

/-- C1: the claim fails on the code.  With 101 input addresses the fetcher
issues two requests, of 100 and 1 addresses; when the second request fails,
the error arm contributes `vec![None; 100]` — the literal 100, not the chunk's
length — so the assembled list has 200 slots instead of 101. -/
theorem fetch_metadata_accounts_length_bug :
    (List.replicate 101 samplePk).length = 101 ∧
    (fetchMetadataList
        (fun c => if c.length = 100
          then .ok (List.replicate 100 (none : Option Account))
          else .error ())
        (List.replicate 101 samplePk)).length = 200 :=
  ⟨rfl, rfl⟩

/-- Dropping both zipped lists to their common length leaves the zip
unchanged: `zip` only reads the first `min` elements of each list. -/
theorem zip_eq_zip_take_min :
    ∀ (l₁ : List α) (l₂ : List β),
      l₁.zip l₂ =
        (l₁.take (min l₁.length l₂.length)).zip
          (l₂.take (min l₁.length l₂.length)) := by
  intro l₁
  induction l₁ with
  | nil => intro l₂; simp
  | cons x xs ih =>
    intro l₂
    cases l₂ with
    | nil => simp
    | cons y ys =>
      simp only [List.zip_cons_cons, List.length_cons, Nat.succ_min_succ,
        List.take_succ_cons]
      rw [← ih ys]

/-- C10: `print_metadata_results` correlates the pda list and the account
list positionally, and only the first `min` of the two lengths pairs are
processed: both lists may be truncated to that length without changing the
output, so excess entries of the longer list are silently ignored. -/
theorem print_metadata_results_positional (deser : List Nat → Option Metadata)
    (pdas : List Pubkey) (accs : List (Option Account)) :
    print_metadata_results deser pdas accs =
      print_metadata_results deser
        (pdas.take (min pdas.length accs.length))
        (accs.take (min pdas.length accs.length)) := by
  unfold print_metadata_results
  rw [← zip_eq_zip_take_min]

/-- C3: a fetched metadata record with zero lamports, or empty data, or owned
by the system program is dead: its loop iteration prints nothing, and the
record can be removed from the correlated lists without changing the output,
regardless of its data contents and of the deserialiser. -/
theorem dead_metadata_records_excluded (deser : List Nat → Option Metadata)
    (pda : Pubkey) (a : Account)
    (hdead : a.lamports = 0 ∨ a.data = [] ∨ a.owner = systemProgramId) :
    metadataStep deser (pda, some a) = none ∧
    ∀ (p₁ p₂ : List Pubkey) (a₁ a₂ : List (Option Account)),
      p₁.length = a₁.length →
      print_metadata_results deser (p₁ ++ pda :: p₂) (a₁ ++ some a :: a₂) =
        print_metadata_results deser (p₁ ++ p₂) (a₁ ++ a₂) := by
  have hd : isDeadAccount a = true := by
    rcases hdead with h | h | h <;> simp [isDeadAccount, h]
  have hstep : metadataStep deser (pda, some a) = none := by
    simp [metadataStep, hd]
  refine ⟨hstep, ?_⟩
  intro p₁ p₂ a₁ a₂ hlen
  unfold print_metadata_results
  rw [List.zip_append hlen, List.zip_append hlen, List.zip_cons_cons]
  simp [List.filterMap_append, hstep]

/-- Witness for C3 at a concrete dead account (zero lamports, non-empty data)
and a deserialiser that accepts everything. -/
theorem dead_metadata_records_excluded_witness :
    metadataStep someDeser (samplePk, some deadAcct) = none ∧
    print_metadata_results someDeser [samplePk] [some deadAcct] =
      print_metadata_results someDeser [] [] :=
  ⟨(dead_metadata_records_excluded someDeser samplePk deadAcct (Or.inl rfl)).1,
   (dead_metadata_records_excluded someDeser samplePk deadAcct (Or.inl rfl)).2
     [] [] [] [] rfl⟩

/-- C4: an entry appears in `filter_mints_with_extensions` exactly when its
account decodes as a mint and the classified extension list is non-empty; the
entry's names are the classified tags in encounter order.  A mint with an
empty (or error-defaulted) extension list is excluded. -/
theorem filter_mints_with_extensions_mem (accounts : List (Pubkey × Account))
    (pk : Pubkey) (ns : List String) :
    (pk, ns) ∈ filter_mints_with_extensions accounts ↔
      ∃ acct, (pk, acct) ∈ accounts ∧
        ∃ st tags, decodeMint acct.data = .ok st ∧
          classifyExtensions st.extensionRegion = .ok tags ∧
          tags ≠ [] ∧ ns = tags.map extTagName := by
  unfold filter_mints_with_extensions
  rw [List.mem_filterMap]
  constructor
  · rintro ⟨⟨pk', acct⟩, hmem, hstep⟩
    cases hdec : decodeMint acct.data with
    | error e => simp [mintExtStep, hdec] at hstep
    | ok st =>
      cases hcls : classifyExtensions st.extensionRegion with
      | error e => simp [mintExtStep, hdec, hcls] at hstep
      | ok tags =>
        by_cases hne : tags = []
        · simp [mintExtStep, hdec, hcls, hne] at hstep
        · simp [mintExtStep, hdec, hcls, List.isEmpty_iff, hne] at hstep
          obtain ⟨hpk, hns⟩ := hstep
          subst hpk
          exact ⟨acct, hmem, st, tags, hdec, hcls, hne, hns.symm⟩
  · rintro ⟨acct, hmem, st, tags, hdec, hcls, hne, hns⟩
    refine ⟨(pk, acct), hmem, ?_⟩
    simp [mintExtStep, hdec, hcls, List.isEmpty_iff, hne, hns]

/-- C7: per-record failures never abort either aggregation (both are total
functions into plain lists): a record whose data fails mint decoding is
skipped by `filter_mints_with_extensions`, and a live metadata record whose
data fails deserialisation is skipped by the metadata aggregation — in both
cases removing the record leaves the output unchanged. -/
theorem per_record_failures_skipped :
    (∀ (xs ys : List (Pubkey × Account)) (pk : Pubkey) (acct : Account)
        (e : DecodeErr),
      decodeMint acct.data = .error e →
      filter_mints_with_extensions (xs ++ (pk, acct) :: ys) =
        filter_mints_with_extensions (xs ++ ys)) ∧
    (∀ (deser : List Nat → Option Metadata) (p₁ p₂ : List Pubkey)
        (a₁ a₂ : List (Option Account)) (pda : Pubkey) (acct : Account),
      p₁.length = a₁.length → deser acct.data = none →
      print_metadata_results deser (p₁ ++ pda :: p₂) (a₁ ++ some acct :: a₂) =
        print_metadata_results deser (p₁ ++ p₂) (a₁ ++ a₂)) := by
  constructor
  · intro xs ys pk acct e hdec
    unfold filter_mints_with_extensions
    rw [List.filterMap_append, List.filterMap_append, List.filterMap_cons]
    simp [mintExtStep, hdec]
  · intro deser p₁ p₂ a₁ a₂ pda acct hlen hdeser
    have hstep : metadataStep deser (pda, some acct) = none := by
      by_cases hd : isDeadAccount acct <;> simp [metadataStep, hd, hdeser]
    unfold print_metadata_results
    rw [List.zip_append hlen, List.zip_append hlen, List.zip_cons_cons]
    simp [List.filterMap_append, hstep]

/-- Witness for C7: a record whose empty data fails mint decoding is skipped,
and a live record rejected by the deserialiser is skipped. -/
theorem per_record_failures_skipped_witness :
    filter_mints_with_extensions [(samplePk, shortAcct)] =
      filter_mints_with_extensions [] ∧
    print_metadata_results noneDeser [samplePk] [some liveAcct] =
      print_metadata_results noneDeser [] [] :=
  ⟨per_record_failures_skipped.1 [] [] samplePk shortAcct .malformedRecord rfl,
   per_record_failures_skipped.2 noneDeser [] [] [] [] samplePk liveAcct rfl rfl⟩

/-- C8: a mint whose base layout decodes but whose extension classification
fails is treated as having zero extensions (`unwrap_or_default`): its loop
iteration yields no entry, the record can be removed without changing the
result set, and no error is raised. -/
theorem truncated_extension_excluded (xs ys : List (Pubkey × Account))
    (pk : Pubkey) (acct : Account) (st : DecodedMint) (e : TlvErr)
    (hdec : decodeMint acct.data = .ok st)
    (hcls : classifyExtensions st.extensionRegion = .error e) :
    mintExtStep (pk, acct) = none ∧
    filter_mints_with_extensions (xs ++ (pk, acct) :: ys) =
      filter_mints_with_extensions (xs ++ ys) := by
  have hstep : mintExtStep (pk, acct) = none := by
    simp [mintExtStep, hdec, hcls]
  refine ⟨hstep, ?_⟩
  unfold filter_mints_with_extensions
  rw [List.filterMap_append, List.filterMap_append, List.filterMap_cons, hstep]

/-- Witness for C8 at a record whose TLV region declares a 5-byte value with
no bytes remaining. -/
theorem truncated_extension_excluded_witness :
    mintExtStep (samplePk, truncAcct) = none ∧
    filter_mints_with_extensions [(samplePk, truncAcct)] =
      filter_mints_with_extensions [] :=
  truncated_extension_excluded [] [] samplePk truncAcct
    ⟨List.replicate 82 0, [3, 0, 5, 0]⟩ .truncatedExtension rfl
    (by simp [classifyExtensions])

/-- C2: when the request for a chunk fails, every slot belonging to that
chunk resolves to `none` and `fetch_metadata_accounts` still returns `Ok`.
The hypothesis on `rpc` is the remote interface's contract that a successful
`getMultipleAccounts` response has one slot per requested address; slot `i`
lives in chunk `i / 100`. -/
theorem fetch_failed_chunk_slots_none
    (rpc : List Pubkey → Except ε (List (Option Account)))
    (keys : List Pubkey) (i : Nat) (c : List Pubkey) (e : ε)
    (hrpc : ∀ ch r, rpc ch = .ok r → r.length = ch.length)
    (hi : i < keys.length)
    (hc : (chunksOf 100 keys)[i / 100]? = some c)
    (he : rpc c = .error e) :
    fetch_metadata_accounts rpc keys = .ok (fetchMetadataList rpc keys) ∧
    (fetchMetadataList rpc keys)[i]? = some none := by
  refine ⟨rfl, ?_⟩
  unfold fetchMetadataList
  have hj : ((chunksOf 100 keys).map (fetchChunk rpc))[i / 100]? =
      some (List.replicate 100 none) := by
    rw [List.getElem?_map, hc]
    simp [fetchChunk, he]
  have ho : i % 100 < (List.replicate 100 (none : Option Account)).length := by
    simp
    omega
  have hlen : ∀ jn bn, jn < i / 100 →
      ((chunksOf 100 keys).map (fetchChunk rpc))[jn]? = some bn →
      bn.length = 100 := by
    intro jn bn hjn hbn
    rw [List.getElem?_map] at hbn
    cases hcn : (chunksOf 100 keys)[jn]? with
    | none => rw [hcn] at hbn; simp at hbn
    | some cn =>
      rw [hcn] at hbn
      simp at hbn
      have hclen := chunksOf_getElem?_length 99 jn keys cn hcn
      norm_num at hclen
      have h100 : cn.length = 100 := by
        have hmul : 100 * (i / 100) ≤ i := Nat.mul_div_le i 100
        omega
      rw [← hbn]
      unfold fetchChunk
      cases hr : rpc cn with
      | ok r => rw [hrpc cn r hr, h100]
      | error er => simp
  have hflat := flatten_getElem?_block 100 (i / 100)
    ((chunksOf 100 keys).map (fetchChunk rpc)) (i % 100)
    (List.replicate 100 none) hj ho hlen
  rw [Nat.div_add_mod i 100] at hflat
  rw [hflat]
  have hmod : i % 100 < 100 := Nat.mod_lt i (by norm_num)
  rw [List.getElem?_replicate, if_pos hmod]

/-- Witness for C2: 150 addresses split into chunks of 100 and 50, every
request failing; slot 120 lies in the failed second chunk and resolves to
`none`, and the operation still returns `Ok`. -/
theorem fetch_failed_chunk_slots_none_witness :
    fetch_metadata_accounts rpcFailAll keys150 =
      .ok (fetchMetadataList rpcFailAll keys150) ∧
    (fetchMetadataList rpcFailAll keys150)[120]? = some none :=
  fetch_failed_chunk_slots_none rpcFailAll keys150 120
    (List.replicate 50 samplePk) ()
    (fun _ _ h => nomatch h) (by simp [keys150]) rfl rfl

end Token2022
